import Mathlib

/-!
Verification of the head-pose estimation core: the pure-JavaScript PnP solver
(`solvePnP`, `initializePose`, `refinePose`, `computeJacobian`, `solve6x6`),
the Rodrigues rotation-vector-to-matrix conversion (`rodrigues`), the Euler
angle decomposition (`rotationMatrixToEulerAngles`) and the driver
`computeHeadPose`.  The JavaScript floating-point arithmetic is embedded as
exact arithmetic in a linear ordered field (instantiated at `ℝ` for the
transcendental parts); JavaScript's `Infinity` initial value of the
refinement loop's `prevError` is modelled by `Option ℝ` (`none` standing for
`Infinity`, which compares greater than every finite error and whose absolute
difference from a finite error is never below any finite threshold).
-/

namespace HeadPose

open Real Matrix

/-- Two-argument arctangent: `atan2 y x` is the argument of the complex
number `x + i·y`, lying in `(-π, π]`.  Models JavaScript `Math.atan2`. -/
noncomputable def atan2 (y x : ℝ) : ℝ := Complex.arg ⟨x, y⟩

/-- A 3×3 real matrix stored flat in row-major order, mirroring the
JavaScript arrays: entry `e(3*row+col)`. -/
structure Mat3 where
  e0 : ℝ
  e1 : ℝ
  e2 : ℝ
  e3 : ℝ
  e4 : ℝ
  e5 : ℝ
  e6 : ℝ
  e7 : ℝ
  e8 : ℝ

/-- The 3×3 identity matrix `[1,0,0, 0,1,0, 0,0,1]`. -/
def idMat3 : Mat3 := ⟨1, 0, 0, 0, 1, 0, 0, 0, 1⟩

/-- Transpose of a row-major 3×3 matrix. -/
def mat3Transpose (A : Mat3) : Mat3 :=
  ⟨A.e0, A.e3, A.e6, A.e1, A.e4, A.e7, A.e2, A.e5, A.e8⟩

/-- Product of two row-major 3×3 matrices. -/
def mat3Mul (A B : Mat3) : Mat3 :=
  ⟨A.e0 * B.e0 + A.e1 * B.e3 + A.e2 * B.e6,
   A.e0 * B.e1 + A.e1 * B.e4 + A.e2 * B.e7,
   A.e0 * B.e2 + A.e1 * B.e5 + A.e2 * B.e8,
   A.e3 * B.e0 + A.e4 * B.e3 + A.e5 * B.e6,
   A.e3 * B.e1 + A.e4 * B.e4 + A.e5 * B.e7,
   A.e3 * B.e2 + A.e4 * B.e5 + A.e5 * B.e8,
   A.e6 * B.e0 + A.e7 * B.e3 + A.e8 * B.e6,
   A.e6 * B.e1 + A.e7 * B.e4 + A.e8 * B.e7,
   A.e6 * B.e2 + A.e7 * B.e5 + A.e8 * B.e8⟩

/-- Determinant of a row-major 3×3 matrix (cofactor expansion along row 0). -/
def det3 (A : Mat3) : ℝ :=
  A.e0 * (A.e4 * A.e8 - A.e5 * A.e7) - A.e1 * (A.e3 * A.e8 - A.e5 * A.e6)
    + A.e2 * (A.e3 * A.e7 - A.e4 * A.e6)

/-- A 3-vector of reals: rotation vectors, translation vectors, 3D points. -/
abbrev Vec3 : Type := ℝ × ℝ × ℝ

/-- `rodrigues rvec`: rotation vector to rotation matrix (Rodrigues formula),
the embedding of the source's `rodrigues`.  If `θ = ‖rvec‖ < 1e-10` it
returns the identity matrix, otherwise the axis-angle rotation matrix built
from the unit axis `k = rvec/θ`, `c = cos θ`, `s = sin θ`, `t = 1 - c`. -/
noncomputable def rodrigues (rvec : Vec3) : Mat3 :=
  let (rx, ry, rz) := rvec
  let theta := Real.sqrt (rx * rx + ry * ry + rz * rz)
  if theta < 1e-10 then
    ⟨1, 0, 0, 0, 1, 0, 0, 0, 1⟩
  else
    let kx := rx / theta
    let ky := ry / theta
    let kz := rz / theta
    let c := Real.cos theta
    let s := Real.sin theta
    let t := 1 - c
    ⟨c + kx * kx * t, kx * ky * t - kz * s, kx * kz * t + ky * s,
     ky * kx * t + kz * s, c + ky * ky * t, ky * kz * t - kx * s,
     kz * kx * t - ky * s, kz * ky * t + kx * s, c + kz * kz * t⟩

/-- The axis-angle rotation matrix with entries exactly as written in the
non-degenerate branch of `rodrigues`, for `c = cos θ`, `s = sin θ` and unit
axis `(kx, ky, kz)`. -/
def axisAngleMat (c s kx ky kz : ℝ) : Mat3 :=
  ⟨c + kx * kx * (1 - c), kx * ky * (1 - c) - kz * s, kx * kz * (1 - c) + ky * s,
   ky * kx * (1 - c) + kz * s, c + ky * ky * (1 - c), ky * kz * (1 - c) - kx * s,
   kz * kx * (1 - c) - ky * s, kz * ky * (1 - c) + kx * s, c + kz * kz * (1 - c)⟩

/-- The Euler-angle triple returned by the pose converter, in degrees. -/
structure EulerAngles where
  pitch : ℝ
  yaw : ℝ
  roll : ℝ

/-- Embedding of the source's `rotationMatrixToEulerAngles`: decompose a
row-major rotation matrix into pitch/yaw/roll, branching on
`sy = sqrt(R[0]² + R[3]²)` for gimbal lock, and convert to degrees. -/
noncomputable def rotationMatrixToEulerAngles (R : Mat3) : EulerAngles :=
  let sy := Real.sqrt (R.e0 * R.e0 + R.e3 * R.e3)
  let pyr : ℝ × ℝ × ℝ :=
    if sy > 1e-6 then
      (atan2 R.e7 R.e8, atan2 (-R.e6) sy, atan2 R.e3 R.e0)
    else
      (atan2 (-R.e5) R.e4, atan2 (-R.e6) sy, 0)
  { pitch := pyr.1 * 180 / π
    yaw := pyr.2.1 * 180 / π
    roll := pyr.2.2 * 180 / π }

/-! ### The 6×6 linear solver

The source's `solve6x6` first copies its flat row-major 36-entry input into
a 2D matrix `M[i][j] = A[i*6+j]`; the embedding takes the matrix directly in
that 2D form (`Fin 6 → Fin 6 → α`).  It is kept generic over a linear
ordered field so that the very same definition can be evaluated on `ℚ` and
instantiated at `ℝ` inside the refinement loop. -/

section Solver

variable {α : Type*} [LinearOrderedField α]

/-- Swap rows `i` and `p` of a 6×6 matrix (the destructuring swap
`[M[i], M[maxRow]] = [M[maxRow], M[i]]`). -/
def swapRows (M : Fin 6 → Fin 6 → α) (i p : Fin 6) : Fin 6 → Fin 6 → α :=
  fun k => if k = i then M p else if k = p then M i else M k

/-- Swap entries `i` and `p` of the right-hand side vector. -/
def swapVec (B : Fin 6 → α) (i p : Fin 6) : Fin 6 → α :=
  fun k => if k = i then B p else if k = p then B i else B k

/-- Partial pivoting: the row `maxRow` of the largest-magnitude entry of
column `i` at or below the diagonal, scanning `k = i+1, …, 5` and replacing
the current candidate exactly when `|M[k][i]| > |M[maxRow][i]|`. -/
def pivotRow (M : Fin 6 → Fin 6 → α) (i : Fin 6) : Fin 6 :=
  (List.finRange 6).foldl (fun mr k => if i < k ∧ |M mr i| < |M k i| then k else mr) i

/-- The elimination body at column `i`: subtract `c = M[k][i]/M[i][i]` times
row `i` from every row `k > i`, touching only columns `j ≥ i` (the source
loop runs `for (j = i; j < n; j++)`). -/
def elimMat (M : Fin 6 → Fin 6 → α) (i : Fin 6) : Fin 6 → Fin 6 → α :=
  fun k j => if i < k ∧ i ≤ j then M k j - M k i / M i i * M i j else M k j

/-- The matching right-hand-side update `B[k] -= c * B[i]` for rows `k > i`. -/
def elimVec (M : Fin 6 → Fin 6 → α) (B : Fin 6 → α) (i : Fin 6) : Fin 6 → α :=
  fun k => if i < k then B k - M k i / M i i * B i else B k

/-- One step of forward elimination at column `i`: pivot, swap, fail if the
pivot magnitude is below `1e-10`, otherwise eliminate below the pivot. -/
def elimStep (s : (Fin 6 → Fin 6 → α) × (Fin 6 → α)) (i : Fin 6) :
    Option ((Fin 6 → Fin 6 → α) × (Fin 6 → α)) :=
  let p := pivotRow s.1 i
  let M := swapRows s.1 i p
  let B := swapVec s.2 i p
  if |M i i| < 1e-10 then none
  else some (elimMat M i, elimVec M B i)

/-- The forward-elimination loop `for (i = 0; i < 6; i++)`, with explicit
fuel (the driver passes fuel 6 from index 0). -/
def elimLoop : ℕ → ℕ → ((Fin 6 → Fin 6 → α) × (Fin 6 → α)) →
    Option ((Fin 6 → Fin 6 → α) × (Fin 6 → α))
  | 0, _, s => some s
  | fuel + 1, i, s =>
    if h : i < 6 then
      match elimStep s ⟨i, h⟩ with
      | none => none
      | some s' => elimLoop fuel (i + 1) s'
    else some s

/-- Back substitution on the upper-triangularised system:
`x[i] = (B[i] - Σ_{j>i} M[i][j]·x[j]) / M[i][i]`, from row 5 down to 0. -/
def backSub (M : Fin 6 → Fin 6 → α) (B : Fin 6 → α) : Fin 6 → α :=
  let x5 := B 5 / M 5 5
  let x4 := (B 4 - M 4 5 * x5) / M 4 4
  let x3 := (B 3 - M 3 4 * x4 - M 3 5 * x5) / M 3 3
  let x2 := (B 2 - M 2 3 * x3 - M 2 4 * x4 - M 2 5 * x5) / M 2 2
  let x1 := (B 1 - M 1 2 * x2 - M 1 3 * x3 - M 1 4 * x4 - M 1 5 * x5) / M 1 1
  let x0 := (B 0 - M 0 1 * x1 - M 0 2 * x2 - M 0 3 * x3 - M 0 4 * x4 - M 0 5 * x5) / M 0 0
  ![x0, x1, x2, x3, x4, x5]

/-- Embedding of the source's `solve6x6`: Gaussian elimination with partial
pivoting on `A·x = b`, returning `none` when a pivot magnitude falls below
`1e-10` and otherwise the back-substituted solution. -/
def solve6x6 (A : Fin 6 → Fin 6 → α) (b : Fin 6 → α) : Option (Fin 6 → α) :=
  match elimLoop 6 0 (A, b) with
  | none => none
  | some (M, B) => some (backSub M B)

/-- `hasBadPivot fuel i s`: the elimination run starting at column `i` with
the given fuel encounters, at some step it actually reaches, a post-pivoting
pivot of magnitude below `1e-10`. -/
def hasBadPivot : ℕ → ℕ → ((Fin 6 → Fin 6 → α) × (Fin 6 → α)) → Prop
  | 0, _, _ => False
  | fuel + 1, i, s =>
    if h : i < 6 then
      |swapRows s.1 ⟨i, h⟩ (pivotRow s.1 ⟨i, h⟩) ⟨i, h⟩ ⟨i, h⟩| < 1e-10 ∨
        ∃ s', elimStep s ⟨i, h⟩ = some s' ∧ hasBadPivot fuel (i + 1) s'
    else False

/-- Columns `j < i` have been cleared below the diagonal: the elimination
invariant after processing columns `0, …, i-1`. -/
def colsZeroed (i : ℕ) (M : Fin 6 → Fin 6 → α) : Prop :=
  ∀ j k : Fin 6, (j : ℕ) < i → j < k → M k j = 0

end Solver

/-- A 6×6 invertible but near-null scalar matrix `1e-12·I`, whose very first
pivot already falls below the `1e-10` threshold. -/
noncomputable def tinyScalarA : Fin 6 → Fin 6 → ℝ := fun i j => if i = j then 1e-12 else 0

/-- The 6×6 identity matrix as solver input. -/
def idA : Fin 6 → Fin 6 → ℝ := fun i j => if i = j then 1 else 0

/-- The 6×6 zero matrix as solver input (a singular matrix: every row is a
zero row). -/
def zeroA : Fin 6 → Fin 6 → ℝ := fun _ _ => 0

/-- The all-ones right-hand side. -/
def onesV : Fin 6 → ℝ := fun _ => 1

/-! ### Jacobian, initialization and Levenberg-Marquardt refinement -/

/-- Per-point residual and Jacobian rows of the source's `computeJacobian`
body: transform the 3D point into the camera frame, project it through the
pinhole model with the `1e-10`-guarded inverse depth, and assemble the
`u`-row and `v`-row of the Jacobian by the chain rule. -/
noncomputable def jacobianPoint (tvec : Vec3) (R : Mat3) (pt : Vec3) (obs : ℝ × ℝ)
    (fx fy cx cy : ℝ) : (ℝ × ℝ) × (Fin 6 → ℝ) × (Fin 6 → ℝ) :=
  let Xc := R.e0 * pt.1 + R.e1 * pt.2.1 + R.e2 * pt.2.2 + tvec.1
  let Yc := R.e3 * pt.1 + R.e4 * pt.2.1 + R.e5 * pt.2.2 + tvec.2.1
  let Zc := R.e6 * pt.1 + R.e7 * pt.2.1 + R.e8 * pt.2.2 + tvec.2.2
  let invZ := 1 / (Zc + 1e-10)
  let invZ2 := invZ * invZ
  let u := fx * Xc * invZ + cx
  let v := fy * Yc * invZ + cy
  let du_dXc := fx * invZ
  let du_dYc := (0 : ℝ)
  let du_dZc := -fx * Xc * invZ2
  let dv_dXc := (0 : ℝ)
  let dv_dYc := fy * invZ
  let dv_dZc := -fy * Yc * invZ2
  let dP_drx : Vec3 := (-Yc * R.e6 + Zc * R.e3, -Yc * R.e7 + Zc * R.e4, -Yc * R.e8 + Zc * R.e5)
  let dP_dry : Vec3 := (Xc * R.e6 - Zc * R.e0, Xc * R.e7 - Zc * R.e1, Xc * R.e8 - Zc * R.e2)
  let dP_drz : Vec3 := (-Xc * R.e3 + Yc * R.e0, -Xc * R.e4 + Yc * R.e1, -Xc * R.e5 + Yc * R.e2)
  let du_drx := du_dXc * dP_drx.1 + du_dYc * dP_drx.2.1 + du_dZc * dP_drx.2.2
  let du_dry := du_dXc * dP_dry.1 + du_dYc * dP_dry.2.1 + du_dZc * dP_dry.2.2
  let du_drz := du_dXc * dP_drz.1 + du_dYc * dP_drz.2.1 + du_dZc * dP_drz.2.2
  let dv_drx := dv_dXc * dP_drx.1 + dv_dYc * dP_drx.2.1 + dv_dZc * dP_drx.2.2
  let dv_dry := dv_dXc * dP_dry.1 + dv_dYc * dP_dry.2.1 + dv_dZc * dP_dry.2.2
  let dv_drz := dv_dXc * dP_drz.1 + dv_dYc * dP_drz.2.1 + dv_dZc * dP_drz.2.2
  ((u - obs.1, v - obs.2),
   ![du_drx, du_dry, du_drz, du_dXc, du_dYc, du_dZc],
   ![dv_drx, dv_dry, dv_drz, dv_dXc, dv_dYc, dv_dZc])

/-- Embedding of the source's `computeJacobian`: the residual pair and the
two Jacobian rows for each of the `n` points.  (The source also computes an
unused local `theta` from `rvec`; `rvec` is kept in the signature, the dead
local is dropped.) -/
noncomputable def computeJacobian {n : ℕ} (rvec tvec : Vec3) (R : Mat3)
    (objPts : Fin n → Vec3) (imgPts : Fin n → ℝ × ℝ) (fx fy cx cy : ℝ) :
    (Fin n → ℝ × ℝ) × (Fin n → (Fin 6 → ℝ) × (Fin 6 → ℝ)) :=
  (fun i => (jacobianPoint tvec R (objPts i) (imgPts i) fx fy cx cy).1,
   fun i => (jacobianPoint tvec R (objPts i) (imgPts i) fx fy cx cy).2)

/-- The per-call input data of the PnP problem: `n` 3D↔2D correspondences
and the four pinhole intrinsics. -/
structure PnPData (n : ℕ) where
  objPts : Fin n → Vec3
  imgPts : Fin n → ℝ × ℝ
  fx : ℝ
  fy : ℝ
  cx : ℝ
  cy : ℝ

/-- Embedding of the source's `initializePose`: centroid/spread heuristic
giving the initial rotation vector (roll fixed to `0`) and translation with
depth `tz = fx·scale3d/(scale2d + 1e-6)`. -/
noncomputable def initializePose {n : ℕ} (d : PnPData n) : Vec3 × Vec3 :=
  let nr : ℝ := n
  let cx3d := (∑ i, (d.objPts i).1) / nr
  let cy3d := (∑ i, (d.objPts i).2.1) / nr
  let _cz3d := (∑ i, (d.objPts i).2.2) / nr
  let cx2d := (∑ i, (d.imgPts i).1) / nr
  let cy2d := (∑ i, (d.imgPts i).2) / nr
  let sum3d := ∑ i, Real.sqrt (((d.objPts i).1 - cx3d) * ((d.objPts i).1 - cx3d) +
    ((d.objPts i).2.1 - cy3d) * ((d.objPts i).2.1 - cy3d))
  let sum2d := ∑ i, Real.sqrt (((d.imgPts i).1 - cx2d) * ((d.imgPts i).1 - cx2d) +
    ((d.imgPts i).2 - cy2d) * ((d.imgPts i).2 - cy2d))
  let scale3d := sum3d / nr
  let scale2d := sum2d / nr
  let tz := d.fx * scale3d / (scale2d + 1e-6)
  let sumX := ∑ i, (((d.imgPts i).1 - cx2d) / d.fx) * ((d.objPts i).2.1 - cy3d)
  let sumY := ∑ i, (((d.imgPts i).2 - cy2d) / d.fy) * ((d.objPts i).1 - cx3d)
  let ry := atan2 sumY tz * 0.5
  let rx := atan2 (-sumX) tz * 0.5
  ((rx, ry, 0), ((cx2d - d.cx) * tz / d.fx, (cy2d - d.cy) * tz / d.fy, tz))

/-- The state of the Levenberg-Marquardt loop: current parameters, damping
`lambda`, and the best recorded error `prevError` (`none` = `Infinity`). -/
structure LMState where
  rvec : Vec3
  tvec : Vec3
  lambda : ℝ
  prevError : Option ℝ

/-- Residual pairs at the current state (rotation matrix recomputed from the
current rotation vector, as at the top of each refinement iteration). -/
noncomputable def residualsAt {n : ℕ} (d : PnPData n) (s : LMState) : Fin n → ℝ × ℝ :=
  (computeJacobian s.rvec s.tvec (rodrigues s.rvec) d.objPts d.imgPts d.fx d.fy d.cx d.cy).1

/-- Jacobian rows at the current state. -/
noncomputable def jacobianAt {n : ℕ} (d : PnPData n) (s : LMState) :
    Fin n → (Fin 6 → ℝ) × (Fin 6 → ℝ) :=
  (computeJacobian s.rvec s.tvec (rodrigues s.rvec) d.objPts d.imgPts d.fx d.fy d.cx d.cy).2

/-- Sum-of-squares reprojection error `Σ residual²` at the current state. -/
noncomputable def errorAt {n : ℕ} (d : PnPData n) (s : LMState) : ℝ :=
  ∑ i, ((residualsAt d s i).1 * (residualsAt d s i).1 +
    (residualsAt d s i).2 * (residualsAt d s i).2)

/-- The normal matrix `JᵗJ` (summing the `u`-row and `v`-row contributions
of every point). -/
noncomputable def jtjAt {n : ℕ} (d : PnPData n) (s : LMState) : Fin 6 → Fin 6 → ℝ :=
  fun j k => ∑ i, ((jacobianAt d s i).1 j * (jacobianAt d s i).1 k +
    (jacobianAt d s i).2 j * (jacobianAt d s i).2 k)

/-- The gradient `Jᵗr`. -/
noncomputable def jtrAt {n : ℕ} (d : PnPData n) (s : LMState) : Fin 6 → ℝ :=
  fun j => ∑ i, ((jacobianAt d s i).1 j * (residualsAt d s i).1 +
    (jacobianAt d s i).2 j * (residualsAt d s i).2)

/-- `JᵗJ` with multiplicative Levenberg-Marquardt damping
`JtJ[i][i] *= (1 + λ)` on the diagonal. -/
noncomputable def dampedJtJ {n : ℕ} (d : PnPData n) (s : LMState) : Fin 6 → Fin 6 → ℝ :=
  fun j k => if j = k then jtjAt d s j k * (1 + s.lambda) else jtjAt d s j k

/-- The update-clamping of the source: if `‖δ‖ > 1.0`, rescale every entry
by `0.5/‖δ‖` (giving a step of norm exactly `0.5`). -/
noncomputable def clampDelta (delta : Fin 6 → ℝ) : Fin 6 → ℝ :=
  let deltaSize := Real.sqrt (∑ i, delta i * delta i)
  if deltaSize > 1.0 then fun i => delta i * (0.5 / deltaSize) else delta

/-- `true` exactly when the JavaScript comparison `error < prevError` is
true, `prevError = none` standing for the initial `Infinity`. -/
noncomputable def improves (prevError : Option ℝ) (error : ℝ) : Bool :=
  match prevError with
  | none => true
  | some p => decide (error < p)

/-- The tail of a refinement iteration once a step `delta` has been obtained
from the linear solve: clamp the step, update `rvec` and `tvec` by
subtracting its two halves (unconditionally), and adapt the damping —
`λ *= 0.1` recording the new best error on improvement, `λ *= 10` keeping
`prevError` (and the already-updated parameters) otherwise. -/
noncomputable def lmUpdate (s : LMState) (delta : Fin 6 → ℝ) (error : ℝ) : LMState :=
  let d := clampDelta delta
  { rvec := (s.rvec.1 - d 0, s.rvec.2.1 - d 1, s.rvec.2.2 - d 2)
    tvec := (s.tvec.1 - d 3, s.tvec.2.1 - d 4, s.tvec.2.2 - d 5)
    lambda := if improves s.prevError error then s.lambda * 0.1 else s.lambda * 10
    prevError := if improves s.prevError error then some error else s.prevError }

/-- One iteration of the source's refinement loop body.  `none` means the
loop breaks (convergence, small error, or singular linear system) and the
caller keeps the current state. -/
noncomputable def lmStep {n : ℕ} (d : PnPData n) (s : LMState) : Option LMState :=
  let error := errorAt d s
  let converged : Bool :=
    match s.prevError with
    | none => false
    | some p => decide (|p - error| < 1e-8)
  if converged then none
  else if error < 0.01 then none
  else
    match solve6x6 (dampedJtJ d s) (jtrAt d s) with
    | none => none
    | some delta => some (lmUpdate s delta error)

/-- The refinement loop with an iteration budget: stop when the budget is
exhausted or when the body breaks, keeping the current state. -/
noncomputable def refineLoop {n : ℕ} (d : PnPData n) : ℕ → LMState → LMState
  | 0, s => s
  | k + 1, s =>
    match lmStep d s with
    | none => s
    | some s' => refineLoop d k s'

/-- Embedding of the source's `refinePose`: run up to `maxIter = 30`
Levenberg-Marquardt iterations from `λ = 0.001`, `prevError = Infinity`, and
return the final rotation and translation vectors unconditionally. -/
noncomputable def refinePose {n : ℕ} (d : PnPData n) (pose : Vec3 × Vec3)
    (maxIter : ℕ := 30) : Vec3 × Vec3 :=
  let final := refineLoop d maxIter
    { rvec := pose.1, tvec := pose.2, lambda := 0.001, prevError := none }
  (final.rvec, final.tvec)

/-- Embedding of the source's `solvePnP`: read the intrinsics out of the
flat camera matrix, initialize, refine, and return `{rvec, tvec}`. -/
noncomputable def solvePnP {n : ℕ} (objPts : Fin n → Vec3) (imgPts : Fin n → ℝ × ℝ)
    (cameraMatrix : Mat3) : Vec3 × Vec3 :=
  let d : PnPData n :=
    ⟨objPts, imgPts, cameraMatrix.e0, cameraMatrix.e4, cameraMatrix.e2, cameraMatrix.e5⟩
  refinePose d (initializePose d)

/-- The fixed 3D facial landmark model (millimetres), six points. -/
def facialCoordinationInRealWorld : Fin 6 → Vec3 :=
  ![(285, 528, 200), (285, 371, 152), (197, 574, 128),
    (173, 425, 108), (360, 574, 128), (391, 425, 108)]

/-- Embedding of the source's `computeHeadPose`: scale the six normalized
landmarks to pixel coordinates, build the assumed intrinsics
(`f = imageWidth`, principal point at the image centre), solve PnP, convert
the rotation vector to a matrix and decompose it into Euler angles. -/
noncomputable def computeHeadPose (lms : Fin 6 → ℝ × ℝ)
    (imageWidth : ℝ := 640) (imageHeight : ℝ := 480) : EulerAngles :=
  let pixelCoords : Fin 6 → ℝ × ℝ := fun i => ((lms i).1 * imageWidth, (lms i).2 * imageHeight)
  let focalLength := 1 * imageWidth
  let cameraMatrix : Mat3 :=
    ⟨focalLength, 0, imageWidth / 2, 0, focalLength, imageHeight / 2, 0, 0, 1⟩
  let rt := solvePnP facialCoordinationInRealWorld pixelCoords cameraMatrix
  rotationMatrixToEulerAngles (rodrigues rt.1)

/-! ### Specification-side helper definitions -/

/-- First camera-frame coordinate of `P = R·X + t`. -/
def camX (R : Mat3) (t : Vec3) (pt : Vec3) : ℝ :=
  R.e0 * pt.1 + R.e1 * pt.2.1 + R.e2 * pt.2.2 + t.1

/-- Second camera-frame coordinate of `P = R·X + t`. -/
def camY (R : Mat3) (t : Vec3) (pt : Vec3) : ℝ :=
  R.e3 * pt.1 + R.e4 * pt.2.1 + R.e5 * pt.2.2 + t.2.1

/-- Third camera-frame coordinate (depth) of `P = R·X + t`. -/
def camZ (R : Mat3) (t : Vec3) (pt : Vec3) : ℝ :=
  R.e6 * pt.1 + R.e7 * pt.2.1 + R.e8 * pt.2.2 + t.2.2

/-- Centroid of the 3D points' first coordinates. -/
noncomputable def cx3dOf {n : ℕ} (d : PnPData n) : ℝ := (∑ i, (d.objPts i).1) / n

/-- Centroid of the 3D points' second coordinates. -/
noncomputable def cy3dOf {n : ℕ} (d : PnPData n) : ℝ := (∑ i, (d.objPts i).2.1) / n

/-- Centroid of the image points' first coordinates. -/
noncomputable def cx2dOf {n : ℕ} (d : PnPData n) : ℝ := (∑ i, (d.imgPts i).1) / n

/-- Centroid of the image points' second coordinates. -/
noncomputable def cy2dOf {n : ℕ} (d : PnPData n) : ℝ := (∑ i, (d.imgPts i).2) / n

/-- Mean radial spread of the 3D points in their X-Y plane. -/
noncomputable def scale3dOf {n : ℕ} (d : PnPData n) : ℝ :=
  (∑ i, Real.sqrt (((d.objPts i).1 - cx3dOf d) * ((d.objPts i).1 - cx3dOf d) +
    ((d.objPts i).2.1 - cy3dOf d) * ((d.objPts i).2.1 - cy3dOf d))) / n

/-- Mean radial spread of the image points. -/
noncomputable def scale2dOf {n : ℕ} (d : PnPData n) : ℝ :=
  (∑ i, Real.sqrt (((d.imgPts i).1 - cx2dOf d) * ((d.imgPts i).1 - cx2dOf d) +
    ((d.imgPts i).2 - cy2dOf d) * ((d.imgPts i).2 - cy2dOf d))) / n

/-- A refinement state at the start of the loop: zero pose, `λ = 0.001`,
`prevError = Infinity`. -/
noncomputable def lmState0 : LMState := ⟨(0, 0, 0), (0, 0, 0), 0.001, none⟩

/-- A single-point problem whose reprojection error at `lmState0` is `0`. -/
noncomputable def dataSmallError : PnPData 1 := ⟨fun _ => (0, 0, 1), fun _ => (0, 0), 1, 1, 0, 0⟩

/-- A single-point problem with zero focal lengths: its error at `lmState0`
is `25` and its (damped) normal matrix is the zero matrix, so the 6×6 solve
fails. -/
noncomputable def dataSingular : PnPData 1 := ⟨fun _ => (0, 0, 1), fun _ => (5, 0), 0, 0, 0, 0⟩

/-- A step vector of norm `2`, for exercising the step clamp. -/
noncomputable def deltaW : Fin 6 → ℝ := ![2, 0, 0, 0, 0, 0]

/-- A state whose best recorded error `26` is beaten by an error of `25`. -/
noncomputable def lmStateHigh : LMState := ⟨(0, 0, 0), (0, 0, 0), 0.001, some 26⟩

/-- A state whose best recorded error `1` is not beaten by an error of `25`. -/
noncomputable def lmStateLow : LMState := ⟨(0, 0, 0), (0, 0, 0), 0.001, some 1⟩

/-! ### Lemmas about the Euler decomposition -/

section EulerLemmas

lemma atan2_zero_one : atan2 0 1 = 0 := by
  have h : (⟨1, 0⟩ : ℂ) = 1 := Complex.ext rfl rfl
  rw [atan2, h, Complex.arg_one]

lemma neg_pi_lt_atan2 (y x : ℝ) : -π < atan2 y x := Complex.neg_pi_lt_arg _

lemma atan2_le_pi (y x : ℝ) : atan2 y x ≤ π := Complex.arg_le_pi _

/-- Radians-in-`[-π, π]` rescaled by `180/π` land in `[-180, 180]`. -/
lemma degree_range {a : ℝ} (h1 : -π ≤ a) (h2 : a ≤ π) :
    -180 ≤ a * 180 / π ∧ a * 180 / π ≤ 180 := by
  have hp : (0 : ℝ) < π := Real.pi_pos
  constructor
  · calc (-180 : ℝ) = -π * 180 / π := by field_simp; ring
    _ ≤ a * 180 / π := by gcongr
  · calc a * 180 / π ≤ π * 180 / π := by gcongr
    _ = 180 := by field_simp

end EulerLemmas

/-- C1: for any 3×3 row-major matrix `R` with `sy = sqrt(R[0]² + R[3]²)`:
if `sy > 1e-6` the Euler decomposition returns
`pitch = atan2(R[7], R[8])`, `yaw = atan2(-R[6], sy)`,
`roll = atan2(R[3], R[0])`, each scaled by `180/π`; otherwise it returns
`pitch = atan2(-R[5], R[4])`, `yaw = atan2(-R[6], sy)` scaled by `180/π`
and `roll = 0` exactly. -/
theorem euler_decomposition_formula (R : Mat3) :
    (1e-6 < Real.sqrt (R.e0 * R.e0 + R.e3 * R.e3) →
      rotationMatrixToEulerAngles R =
        { pitch := atan2 R.e7 R.e8 * 180 / π
          yaw := atan2 (-R.e6) (Real.sqrt (R.e0 * R.e0 + R.e3 * R.e3)) * 180 / π
          roll := atan2 R.e3 R.e0 * 180 / π }) ∧
    (¬ 1e-6 < Real.sqrt (R.e0 * R.e0 + R.e3 * R.e3) →
      rotationMatrixToEulerAngles R =
        { pitch := atan2 (-R.e5) R.e4 * 180 / π
          yaw := atan2 (-R.e6) (Real.sqrt (R.e0 * R.e0 + R.e3 * R.e3)) * 180 / π
          roll := 0 }) := by
  unfold rotationMatrixToEulerAngles
  constructor
  · intro h
    simp only [if_pos h]
  · intro h
    simp only [if_neg h]
    norm_num

/-- Witness for C1: at the identity matrix `sy = 1 > 1e-6` and the
decomposition evaluates to pitch = yaw = roll = 0. -/
theorem euler_decomposition_formula_witness :
    rotationMatrixToEulerAngles idMat3 = ⟨0, 0, 0⟩ := by
  have hsy : Real.sqrt (idMat3.e0 * idMat3.e0 + idMat3.e3 * idMat3.e3) = 1 := by
    show Real.sqrt (1 * 1 + 0 * 0) = 1
    norm_num
  have h := (euler_decomposition_formula idMat3).1 (by rw [hsy]; norm_num)
  rw [h, hsy]
  show EulerAngles.mk (atan2 0 1 * 180 / π) (atan2 (-0) 1 * 180 / π)
      (atan2 0 1 * 180 / π) = ⟨0, 0, 0⟩
  rw [neg_zero, atan2_zero_one]
  norm_num

/-- C10: every angle produced by the Euler decomposition lies in
`[-180, 180]` degrees, since each is an `atan2` value in `(-π, π]` scaled
by `180/π` (and the gimbal-lock roll is `0`). -/
theorem euler_angles_bounded (R : Mat3) :
    (-180 ≤ (rotationMatrixToEulerAngles R).pitch ∧
      (rotationMatrixToEulerAngles R).pitch ≤ 180) ∧
    (-180 ≤ (rotationMatrixToEulerAngles R).yaw ∧
      (rotationMatrixToEulerAngles R).yaw ≤ 180) ∧
    (-180 ≤ (rotationMatrixToEulerAngles R).roll ∧
      (rotationMatrixToEulerAngles R).roll ≤ 180) := by
  have hb : ∀ y x : ℝ, -180 ≤ atan2 y x * 180 / π ∧ atan2 y x * 180 / π ≤ 180 :=
    fun y x => degree_range (le_of_lt (neg_pi_lt_atan2 y x)) (atan2_le_pi y x)
  unfold rotationMatrixToEulerAngles
  by_cases h : Real.sqrt (R.e0 * R.e0 + R.e3 * R.e3) > 1e-6
  · simp only [if_pos h]
    exact ⟨hb _ _, hb _ _, hb _ _⟩
  · simp only [if_neg h]
    refine ⟨hb _ _, hb _ _, ?_⟩
    norm_num

/-! ### Lemmas about the Rodrigues conversion -/

section RodriguesLemmas

lemma rodrigues_eq (rx ry rz : ℝ) :
    rodrigues (rx, ry, rz) =
      if Real.sqrt (rx * rx + ry * ry + rz * rz) < 1e-10 then idMat3
      else
        axisAngleMat (Real.cos (Real.sqrt (rx * rx + ry * ry + rz * rz)))
          (Real.sin (Real.sqrt (rx * rx + ry * ry + rz * rz)))
          (rx / Real.sqrt (rx * rx + ry * ry + rz * rz))
          (ry / Real.sqrt (rx * rx + ry * ry + rz * rz))
          (rz / Real.sqrt (rx * rx + ry * ry + rz * rz)) := rfl

/-- Any axis-angle matrix built from `c² + s² = 1` and a unit axis is
orthogonal with determinant one. -/
lemma axisAngleMat_orthonormal (c s kx ky kz : ℝ) (hcs : c ^ 2 + s ^ 2 = 1)
    (hk : kx ^ 2 + ky ^ 2 + kz ^ 2 = 1) :
    mat3Mul (mat3Transpose (axisAngleMat c s kx ky kz)) (axisAngleMat c s kx ky kz) = idMat3 ∧
    det3 (axisAngleMat c s kx ky kz) = 1 := by
  unfold axisAngleMat mat3Transpose mat3Mul det3 idMat3
  constructor
  · rw [Mat3.mk.injEq]
    refine ⟨?_, ?_, ?_, ?_, ?_, ?_, ?_, ?_, ?_⟩
    · linear_combination (kx ^ 2 * (1 - c) ^ 2 + s ^ 2) * hk + (1 - kx ^ 2) * hcs
    · linear_combination (kx * ky * (1 - c) ^ 2) * hk - kx * ky * hcs
    · linear_combination (kx * kz * (1 - c) ^ 2) * hk - kx * kz * hcs
    · linear_combination (kx * ky * (1 - c) ^ 2) * hk - kx * ky * hcs
    · linear_combination (ky ^ 2 * (1 - c) ^ 2 + s ^ 2) * hk + (1 - ky ^ 2) * hcs
    · linear_combination (ky * kz * (1 - c) ^ 2) * hk - ky * kz * hcs
    · linear_combination (kx * kz * (1 - c) ^ 2) * hk - kx * kz * hcs
    · linear_combination (ky * kz * (1 - c) ^ 2) * hk - ky * kz * hcs
    · linear_combination (kz ^ 2 * (1 - c) ^ 2 + s ^ 2) * hk + (1 - kz ^ 2) * hcs
  · linear_combination
      (c ^ 2 * (1 - c) + c * s ^ 2 + (1 - c) * s ^ 2 * (kx ^ 2 + ky ^ 2 + kz ^ 2 + 1)) * hk + hcs

end RodriguesLemmas

/-- C2: for every rotation vector, `R = rodrigues rvec` satisfies
`Rᵀ·R = I` and `det R = 1` exactly over real arithmetic; and whenever
`θ = ‖rvec‖ < 1e-10` — in particular at `rvec = (0,0,0)` — `rodrigues`
returns exactly the identity matrix. -/
theorem rodrigues_orthonormal (rvec : Vec3) :
    mat3Mul (mat3Transpose (rodrigues rvec)) (rodrigues rvec) = idMat3 ∧
    det3 (rodrigues rvec) = 1 ∧
    (Real.sqrt (rvec.1 * rvec.1 + rvec.2.1 * rvec.2.1 + rvec.2.2 * rvec.2.2) < 1e-10 →
      rodrigues rvec = idMat3) := by
  obtain ⟨rx, ry, rz⟩ := rvec
  rw [rodrigues_eq]
  by_cases h : Real.sqrt (rx * rx + ry * ry + rz * rz) < 1e-10
  · rw [if_pos h]
    refine ⟨?_, ?_, fun _ => rfl⟩
    · unfold idMat3 mat3Transpose mat3Mul
      rw [Mat3.mk.injEq]
      norm_num
    · unfold idMat3 det3
      norm_num
  · rw [if_neg h]
    have hnn : (0 : ℝ) ≤ rx * rx + ry * ry + rz * rz := by
      nlinarith [mul_self_nonneg rx, mul_self_nonneg ry, mul_self_nonneg rz]
    have hcs := Real.cos_sq_add_sin_sq (Real.sqrt (rx * rx + ry * ry + rz * rz))
    have hθ : Real.sqrt (rx * rx + ry * ry + rz * rz) ≠ 0 := by
      intro h0
      rw [h0] at h
      norm_num at h
    have hz : rx * rx + ry * ry + rz * rz ≠ 0 := fun h0 => hθ (by rw [h0, Real.sqrt_zero])
    have hk : (rx / Real.sqrt (rx * rx + ry * ry + rz * rz)) ^ 2 +
        (ry / Real.sqrt (rx * rx + ry * ry + rz * rz)) ^ 2 +
        (rz / Real.sqrt (rx * rx + ry * ry + rz * rz)) ^ 2 = 1 := by
      field_simp
      ring
    obtain ⟨h1, h2⟩ := axisAngleMat_orthonormal _ _ _ _ _ hcs hk
    exact ⟨h1, h2, fun hlt => absurd hlt h⟩

/-- Witness for C2: at the zero rotation vector, `θ = 0 < 1e-10`, so
`rodrigues (0,0,0)` is exactly the identity matrix. -/
theorem rodrigues_orthonormal_witness : rodrigues (0, 0, 0) = idMat3 := by
  have h : Real.sqrt ((0 : ℝ) * 0 + 0 * 0 + 0 * 0) < 1e-10 := by norm_num
  exact (rodrigues_orthonormal (0, 0, 0)).2.2 h

/-! ### Lemmas about the 6×6 solver -/

section SolverLemmas

variable {α : Type*} [LinearOrderedField α]

lemma swapRows_self (M : Fin 6 → Fin 6 → α) (i : Fin 6) : swapRows M i i = M := by
  funext k
  unfold swapRows
  by_cases h : k = i
  · subst h; simp
  · simp [h]

lemma swapVec_self (B : Fin 6 → α) (i : Fin 6) : swapVec B i i = B := by
  funext k
  unfold swapVec
  by_cases h : k = i
  · subst h; simp
  · simp [h]

lemma swapRows_eq_perm (M : Fin 6 → Fin 6 → α) (i p k : Fin 6) :
    swapRows M i p k = M (Equiv.swap i p k) := by
  unfold swapRows
  split_ifs <;> simp [Equiv.swap_apply_def, *]

lemma swapVec_eq_perm (B : Fin 6 → α) (i p k : Fin 6) :
    swapVec B i p k = B (Equiv.swap i p k) := by
  unfold swapVec
  split_ifs <;> simp [Equiv.swap_apply_def, *]

lemma pivotRow_ge (M : Fin 6 → Fin 6 → α) (i : Fin 6) : i ≤ pivotRow M i := by
  unfold pivotRow
  have key : ∀ (l : List (Fin 6)) (mr : Fin 6), i ≤ mr →
      i ≤ l.foldl (fun mr k => if i < k ∧ |M mr i| < |M k i| then k else mr) mr := by
    intro l
    induction l with
    | nil => exact fun mr h => h
    | cons a l ih =>
      intro mr h
      apply ih
      show i ≤ if i < a ∧ |M mr i| < |M a i| then a else mr
      by_cases hc : i < a ∧ |M mr i| < |M a i|
      · rw [if_pos hc]; exact le_of_lt hc.1
      · rw [if_neg hc]; exact h
  exact key _ i le_rfl

lemma pivotRow_of_max (M : Fin 6 → Fin 6 → α) (i : Fin 6)
    (h : ∀ k, i < k → |M k i| ≤ |M i i|) : pivotRow M i = i := by
  unfold pivotRow
  have hfalse : ∀ k : Fin 6, ¬ (i < k ∧ |M i i| < |M k i|) :=
    fun k hc => (not_lt.mpr (h k hc.1)) hc.2
  have hl : List.finRange 6 = [0, 1, 2, 3, 4, 5] := by decide
  rw [hl]
  simp only [List.foldl]
  rw [if_neg (hfalse 0), if_neg (hfalse 1), if_neg (hfalse 2), if_neg (hfalse 3),
    if_neg (hfalse 4), if_neg (hfalse 5)]

lemma elimStep_none_iff (s : (Fin 6 → Fin 6 → α) × (Fin 6 → α)) (i : Fin 6) :
    elimStep s i = none ↔ |swapRows s.1 i (pivotRow s.1 i) i i| < 1e-10 := by
  unfold elimStep
  dsimp only
  split_ifs with h
  · simpa using h
  · simp [h]

lemma elimStep_some_spec {s s₁ : (Fin 6 → Fin 6 → α) × (Fin 6 → α)} {i : Fin 6}
    (hs : elimStep s i = some s₁) :
    ¬ |swapRows s.1 i (pivotRow s.1 i) i i| < 1e-10 ∧
    s₁.1 = elimMat (swapRows s.1 i (pivotRow s.1 i)) i ∧
    s₁.2 = elimVec (swapRows s.1 i (pivotRow s.1 i)) (swapVec s.2 i (pivotRow s.1 i)) i := by
  unfold elimStep at hs
  dsimp only at hs
  split_ifs at hs with h
  have h2 := Option.some.inj hs
  exact ⟨h, by rw [← h2], by rw [← h2]⟩

lemma elimMat_row_le (M : Fin 6 → Fin 6 → α) (i k : Fin 6) (hk : ¬ i < k) :
    elimMat M i k = M k := by
  funext j
  unfold elimMat
  rw [if_neg (fun hc => hk hc.1)]

lemma elimVec_row_le (M : Fin 6 → Fin 6 → α) (B : Fin 6 → α) (i k : Fin 6) (hk : ¬ i < k) :
    elimVec M B i k = B k := by
  unfold elimVec
  rw [if_neg hk]

lemma elimMat_zero_below (M : Fin 6 → Fin 6 → α) (i k : Fin 6) (hMii : M i i ≠ 0)
    (hk : i < k) : elimMat M i k i = 0 := by
  unfold elimMat
  rw [if_pos ⟨hk, le_rfl⟩, div_mul_cancel₀ _ hMii, sub_self]

lemma elimMat_keeps_earlier (M : Fin 6 → Fin 6 → α) (i j k : Fin 6) (hj : j < i) :
    elimMat M i k j = M k j := by
  unfold elimMat
  rw [if_neg (fun hc => absurd hc.2 (not_le.mpr hj))]

lemma elimMat_row_sum (M : Fin 6 → Fin 6 → α) (i k : Fin 6) (hk : i < k)
    (hrow0 : ∀ j, j < i → M i j = 0) (x : Fin 6 → α) :
    ∑ j, elimMat M i k j * x j =
      ∑ j, M k j * x j - M k i / M i i * ∑ j, M i j * x j := by
  have hpt : ∀ j, elimMat M i k j = M k j - M k i / M i i * M i j := by
    intro j
    unfold elimMat
    by_cases hj : i ≤ j
    · rw [if_pos ⟨hk, hj⟩]
    · rw [if_neg (fun hc => hj hc.2), hrow0 j (not_le.mp hj), mul_zero, sub_zero]
  calc ∑ j, elimMat M i k j * x j
      = ∑ j, (M k j * x j - M k i / M i i * (M i j * x j)) := by
        refine Finset.sum_congr rfl fun j _ => ?_
        rw [hpt j]; ring
  _ = ∑ j, M k j * x j - M k i / M i i * ∑ j, M i j * x j := by
        rw [Finset.sum_sub_distrib, Finset.mul_sum]

lemma elim_solset (M : Fin 6 → Fin 6 → α) (B : Fin 6 → α) (i : Fin 6)
    (hMii : M i i ≠ 0) (hrow0 : ∀ j, j < i → M i j = 0) (x : Fin 6 → α) :
    (∀ r, ∑ j, elimMat M i r j * x j = elimVec M B i r) ↔
      (∀ r, ∑ j, M r j * x j = B r) := by
  constructor
  · intro h r
    by_cases hr : i < r
    · have hi := h i
      rw [elimMat_row_le M i i (lt_irrefl i), elimVec_row_le M B i i (lt_irrefl i)] at hi
      have hr' := h r
      rw [elimMat_row_sum M i r hr hrow0 x] at hr'
      unfold elimVec at hr'
      rw [if_pos hr, hi] at hr'
      linarith [hr']
    · have hrr := h r
      rwa [elimMat_row_le M i r hr, elimVec_row_le M B i r hr] at hrr
  · intro h r
    by_cases hr : i < r
    · rw [elimMat_row_sum M i r hr hrow0 x]
      unfold elimVec
      rw [if_pos hr, h r, h i]
    · rw [elimMat_row_le M i r hr, elimVec_row_le M B i r hr]
      exact h r

lemma swap_solset (M : Fin 6 → Fin 6 → α) (B : Fin 6 → α) (i p : Fin 6) (x : Fin 6 → α) :
    (∀ r, ∑ j, swapRows M i p r j * x j = swapVec B i p r) ↔
      (∀ r, ∑ j, M r j * x j = B r) := by
  constructor
  · intro h r
    have hr := h (Equiv.swap i p r)
    simpa only [swapRows_eq_perm, swapVec_eq_perm, Equiv.swap_apply_self] using hr
  · intro h r
    simpa only [swapRows_eq_perm, swapVec_eq_perm] using h (Equiv.swap i p r)

lemma colsZeroed_swap (M : Fin 6 → Fin 6 → α) (i p : Fin 6) (hp : i ≤ p)
    (hz : colsZeroed (i : ℕ) M) : colsZeroed (i : ℕ) (swapRows M i p) := by
  intro j k hj hjk
  rw [swapRows_eq_perm]
  have hji : j < i := by rw [Fin.lt_def]; exact hj
  rw [Equiv.swap_apply_def]
  split_ifs with h1 h2
  · exact hz j p hj (lt_of_lt_of_le hji hp)
  · exact hz j i hj hji
  · exact hz j k hj hjk

lemma colsZeroed_succ (M : Fin 6 → Fin 6 → α) (i : Fin 6) (hz : colsZeroed (i : ℕ) M)
    (hMii : M i i ≠ 0) : colsZeroed ((i : ℕ) + 1) (elimMat M i) := by
  intro j k hj hjk
  by_cases hji : (j : ℕ) < (i : ℕ)
  · rw [elimMat_keeps_earlier M i j k (by rw [Fin.lt_def]; exact hji)]
    exact hz j k hji hjk
  · have hj_eq : j = i := Fin.ext (by omega)
    subst hj_eq
    exact elimMat_zero_below M j k hMii hjk

lemma abs_not_lt_ne_zero {a : α} (h : ¬ |a| < 1e-10) : a ≠ 0 := by
  intro h0
  apply h
  rw [h0, abs_zero]
  norm_num

lemma elimLoop_sound : ∀ (fuel i : ℕ) (s s' : (Fin 6 → Fin 6 → α) × (Fin 6 → α)),
    fuel + i = 6 → colsZeroed i s.1 →
    elimLoop fuel i s = some s' →
    colsZeroed 6 s'.1 ∧
    (∀ r : Fin 6, (r : ℕ) < i → s'.1 r = s.1 r ∧ s'.2 r = s.2 r) ∧
    (∀ r : Fin 6, i ≤ (r : ℕ) → ¬ |s'.1 r r| < 1e-10) ∧
    (∀ x : Fin 6 → α,
      (∀ r, ∑ j, s'.1 r j * x j = s'.2 r) ↔ (∀ r, ∑ j, s.1 r j * x j = s.2 r)) := by
  intro fuel
  induction fuel with
  | zero =>
    intro i s s' hfi hz hrun
    have hi6 : i = 6 := by omega
    subst hi6
    have hs : s = s' := Option.some.inj hrun
    subst hs
    refine ⟨hz, fun r _ => ⟨rfl, rfl⟩, fun r hr => ?_, fun x => Iff.rfl⟩
    have := r.isLt
    omega
  | succ fuel ih =>
    intro i s s' hfi hz hrun
    have hi : i < 6 := by omega
    unfold elimLoop at hrun
    rw [dif_pos hi] at hrun
    rcases hstep : elimStep s ⟨i, hi⟩ with _ | s₁
    · rw [hstep] at hrun
      exact absurd hrun (by simp)
    · rw [hstep] at hrun
      obtain ⟨hbig, h1, h2⟩ := elimStep_some_spec hstep
      have hpge : (⟨i, hi⟩ : Fin 6) ≤ pivotRow s.1 ⟨i, hi⟩ := pivotRow_ge _ _
      have hzswap : colsZeroed i (swapRows s.1 ⟨i, hi⟩ (pivotRow s.1 ⟨i, hi⟩)) :=
        colsZeroed_swap _ _ _ hpge hz
      have hMii : swapRows s.1 ⟨i, hi⟩ (pivotRow s.1 ⟨i, hi⟩) ⟨i, hi⟩ ⟨i, hi⟩ ≠ 0 :=
        abs_not_lt_ne_zero hbig
      have hz1 : colsZeroed (i + 1) s₁.1 := by
        rw [h1]
        exact colsZeroed_succ _ _ hzswap hMii
      obtain ⟨g1, g2, g3, g4⟩ := ih (i + 1) s₁ s' (by omega) hz1 hrun
      have hrow0 : ∀ j : Fin 6, j < ⟨i, hi⟩ →
          swapRows s.1 ⟨i, hi⟩ (pivotRow s.1 ⟨i, hi⟩) ⟨i, hi⟩ j = 0 := by
        intro j hj
        have : swapRows s.1 ⟨i, hi⟩ (pivotRow s.1 ⟨i, hi⟩) ⟨i, hi⟩ =
            s.1 (pivotRow s.1 ⟨i, hi⟩) := by
          unfold swapRows
          rw [if_pos rfl]
        rw [this]
        exact hz j _ hj (lt_of_lt_of_le hj hpge)
      refine ⟨g1, ?_, ?_, ?_⟩
      · intro r hr
        obtain ⟨ga, gb⟩ := g2 r (by omega)
        have hnk : ¬ (⟨i, hi⟩ : Fin 6) < r := by
          rw [Fin.lt_def]
          have hcast : ((⟨i, hi⟩ : Fin 6) : ℕ) = i := rfl
          omega
        have hrni : r ≠ (⟨i, hi⟩ : Fin 6) := by
          intro h0
          rw [h0] at hr
          exact absurd hr (lt_irrefl _)
        have hrnp : r ≠ pivotRow s.1 ⟨i, hi⟩ := by
          intro h0
          have := lt_of_lt_of_le (show (r : ℕ) < i from hr) (Fin.le_def.mp hpge)
          rw [h0] at this
          exact absurd this (lt_irrefl _)
        have hswr : swapRows s.1 ⟨i, hi⟩ (pivotRow s.1 ⟨i, hi⟩) r = s.1 r := by
          unfold swapRows
          rw [if_neg hrni, if_neg hrnp]
        have hswv : swapVec s.2 ⟨i, hi⟩ (pivotRow s.1 ⟨i, hi⟩) r = s.2 r := by
          unfold swapVec
          rw [if_neg hrni, if_neg hrnp]
        constructor
        · rw [ga, h1, elimMat_row_le _ _ _ hnk, hswr]
        · rw [gb, h2, elimVec_row_le _ _ _ _ hnk, hswv]
      · intro r hr
        by_cases hri : (r : ℕ) = i
        · have hre : r = (⟨i, hi⟩ : Fin 6) := Fin.ext hri
          rw [(g2 r (by omega)).1, h1, hre, elimMat_row_le _ _ _ (lt_irrefl _)]
          exact hbig
        · exact g3 r (by omega)
      · intro x
        rw [g4 x]
        calc (∀ r, ∑ j, s₁.1 r j * x j = s₁.2 r)
            ↔ (∀ r, ∑ j, elimMat (swapRows s.1 ⟨i, hi⟩ (pivotRow s.1 ⟨i, hi⟩)) ⟨i, hi⟩ r j * x j =
                elimVec (swapRows s.1 ⟨i, hi⟩ (pivotRow s.1 ⟨i, hi⟩))
                  (swapVec s.2 ⟨i, hi⟩ (pivotRow s.1 ⟨i, hi⟩)) ⟨i, hi⟩ r) := by
              rw [h1, h2]
        _ ↔ (∀ r, ∑ j, swapRows s.1 ⟨i, hi⟩ (pivotRow s.1 ⟨i, hi⟩) r j * x j =
                swapVec s.2 ⟨i, hi⟩ (pivotRow s.1 ⟨i, hi⟩) r) :=
              elim_solset _ _ _ hMii hrow0 x
        _ ↔ (∀ r, ∑ j, s.1 r j * x j = s.2 r) := swap_solset _ _ _ _ x

lemma backSub_solves (M : Fin 6 → Fin 6 → α) (B : Fin 6 → α)
    (htri : ∀ j k : Fin 6, j < k → M k j = 0) (hd : ∀ r : Fin 6, M r r ≠ 0) :
    ∀ r, ∑ j, M r j * backSub M B j = B r := by
  have hx5 : backSub M B 5 = B 5 / M 5 5 := rfl
  have hx4 : backSub M B 4 = (B 4 - M 4 5 * backSub M B 5) / M 4 4 := rfl
  have hx3 : backSub M B 3 =
      (B 3 - M 3 4 * backSub M B 4 - M 3 5 * backSub M B 5) / M 3 3 := rfl
  have hx2 : backSub M B 2 =
      (B 2 - M 2 3 * backSub M B 3 - M 2 4 * backSub M B 4 - M 2 5 * backSub M B 5) /
        M 2 2 := rfl
  have hx1 : backSub M B 1 =
      (B 1 - M 1 2 * backSub M B 2 - M 1 3 * backSub M B 3 - M 1 4 * backSub M B 4 -
        M 1 5 * backSub M B 5) / M 1 1 := rfl
  have hx0 : backSub M B 0 =
      (B 0 - M 0 1 * backSub M B 1 - M 0 2 * backSub M B 2 - M 0 3 * backSub M B 3 -
        M 0 4 * backSub M B 4 - M 0 5 * backSub M B 5) / M 0 0 := rfl
  have e5 : M 5 5 * backSub M B 5 = B 5 := by
    rw [hx5, mul_comm, div_mul_cancel₀ _ (hd 5)]
  have e4 : M 4 4 * backSub M B 4 = B 4 - M 4 5 * backSub M B 5 := by
    rw [hx4, mul_comm, div_mul_cancel₀ _ (hd 4)]
  have e3 : M 3 3 * backSub M B 3 =
      B 3 - M 3 4 * backSub M B 4 - M 3 5 * backSub M B 5 := by
    rw [hx3, mul_comm, div_mul_cancel₀ _ (hd 3)]
  have e2 : M 2 2 * backSub M B 2 =
      B 2 - M 2 3 * backSub M B 3 - M 2 4 * backSub M B 4 - M 2 5 * backSub M B 5 := by
    rw [hx2, mul_comm, div_mul_cancel₀ _ (hd 2)]
  have e1 : M 1 1 * backSub M B 1 =
      B 1 - M 1 2 * backSub M B 2 - M 1 3 * backSub M B 3 - M 1 4 * backSub M B 4 -
        M 1 5 * backSub M B 5 := by
    rw [hx1, mul_comm, div_mul_cancel₀ _ (hd 1)]
  have e0 : M 0 0 * backSub M B 0 =
      B 0 - M 0 1 * backSub M B 1 - M 0 2 * backSub M B 2 - M 0 3 * backSub M B 3 -
        M 0 4 * backSub M B 4 - M 0 5 * backSub M B 5 := by
    rw [hx0, mul_comm, div_mul_cancel₀ _ (hd 0)]
  have row0 : ∑ j, M 0 j * backSub M B j = B 0 := by
    rw [Fin.sum_univ_six]
    linarith [e0]
  have row1 : ∑ j, M 1 j * backSub M B j = B 1 := by
    rw [Fin.sum_univ_six, htri 0 1 (by decide)]
    simp only [zero_mul, zero_add]
    linarith [e1]
  have row2 : ∑ j, M 2 j * backSub M B j = B 2 := by
    rw [Fin.sum_univ_six, htri 0 2 (by decide), htri 1 2 (by decide)]
    simp only [zero_mul, zero_add, add_zero]
    linarith [e2]
  have row3 : ∑ j, M 3 j * backSub M B j = B 3 := by
    rw [Fin.sum_univ_six, htri 0 3 (by decide), htri 1 3 (by decide), htri 2 3 (by decide)]
    simp only [zero_mul, zero_add, add_zero]
    linarith [e3]
  have row4 : ∑ j, M 4 j * backSub M B j = B 4 := by
    rw [Fin.sum_univ_six, htri 0 4 (by decide), htri 1 4 (by decide), htri 2 4 (by decide),
      htri 3 4 (by decide)]
    simp only [zero_mul, zero_add, add_zero]
    linarith [e4]
  have row5 : ∑ j, M 5 j * backSub M B j = B 5 := by
    rw [Fin.sum_univ_six, htri 0 5 (by decide), htri 1 5 (by decide), htri 2 5 (by decide),
      htri 3 5 (by decide), htri 4 5 (by decide)]
    simp only [zero_mul, zero_add, add_zero]
    linarith [e5]
  intro r
  fin_cases r
  · exact row0
  · exact row1
  · exact row2
  · exact row3
  · exact row4
  · exact row5

lemma solve6x6_some_solves {A : Fin 6 → Fin 6 → α} {b x : Fin 6 → α}
    (h : solve6x6 A b = some x) : ∀ r, ∑ j, A r j * x j = b r := by
  unfold solve6x6 at h
  rcases hrun : elimLoop (α := α) 6 0 (A, b) with _ | ⟨M, B⟩
  · rw [hrun] at h
    exact absurd h (by simp)
  · rw [hrun] at h
    dsimp only at h
    have hx : x = backSub M B := (Option.some.inj h).symm
    obtain ⟨g1, _, g3, g4⟩ := elimLoop_sound 6 0 (A, b) (M, B) rfl
      (fun j k hj _ => absurd hj (Nat.not_lt_zero _)) hrun
    have htri : ∀ j k : Fin 6, j < k → M k j = 0 := fun j k hjk => g1 j k j.isLt hjk
    have hd : ∀ r : Fin 6, M r r ≠ 0 := fun r => abs_not_lt_ne_zero (g3 r (Nat.zero_le _))
    subst hx
    exact (g4 (backSub M B)).mp (backSub_solves M B htri hd)

lemma elimLoop_none_iff : ∀ (fuel i : ℕ) (s : (Fin 6 → Fin 6 → α) × (Fin 6 → α)),
    elimLoop fuel i s = none ↔ hasBadPivot fuel i s := by
  intro fuel
  induction fuel with
  | zero =>
    intro i s
    simp [elimLoop, hasBadPivot]
  | succ fuel ih =>
    intro i s
    unfold elimLoop hasBadPivot
    by_cases hi : i < 6
    · rw [dif_pos hi, dif_pos hi]
      rcases hstep : elimStep s ⟨i, hi⟩ with _ | s₁
      · simp only [hstep]
        constructor
        · intro _
          exact Or.inl ((elimStep_none_iff _ _).mp hstep)
        · intro _
          trivial
      · simp only [hstep]
        constructor
        · intro h
          exact Or.inr ⟨s₁, rfl, (ih (i + 1) s₁).mp h⟩
        · intro h
          rcases h with h | ⟨s', hs', hbad⟩
          · exact absurd ((elimStep_none_iff _ _).mpr h) (by simp [hstep])
          · have hss := Option.some.inj hs'
            subst hss
            exact (ih (i + 1) s₁).mpr hbad
    · rw [dif_neg hi, dif_neg hi]
      simp

lemma elimLoop_none_indep : ∀ (fuel i : ℕ) (M : Fin 6 → Fin 6 → α) (B B' : Fin 6 → α),
    elimLoop fuel i (M, B) = none → elimLoop fuel i (M, B') = none := by
  intro fuel
  induction fuel with
  | zero =>
    intro i M B B' h
    exact absurd h (by simp [elimLoop])
  | succ fuel ih =>
    intro i M B B' h
    unfold elimLoop at h ⊢
    by_cases hi : i < 6
    · rw [dif_pos hi] at h ⊢
      rcases hstep : elimStep (M, B) ⟨i, hi⟩ with _ | s₁
      · have hbad : |swapRows M ⟨i, hi⟩ (pivotRow M ⟨i, hi⟩) ⟨i, hi⟩ ⟨i, hi⟩| < 1e-10 :=
          (elimStep_none_iff (M, B) ⟨i, hi⟩).mp hstep
        have hnone : elimStep (M, B') ⟨i, hi⟩ = none :=
          (elimStep_none_iff (M, B') ⟨i, hi⟩).mpr hbad
        rw [hnone]
      · rw [hstep] at h
        rcases hstep' : elimStep (M, B') ⟨i, hi⟩ with _ | s₁'
        · rfl
        · obtain ⟨_, e1, e2⟩ := elimStep_some_spec hstep
          obtain ⟨_, e1', e2'⟩ := elimStep_some_spec hstep'
          dsimp only at e1 e1'
          have hM : s₁'.1 = s₁.1 := by rw [e1, e1']
          have h1 : elimLoop fuel (i + 1) (s₁.1, s₁.2) = none := by
            rw [Prod.mk.eta]
            exact h
          have h2 := ih (i + 1) s₁.1 s₁.2 s₁'.2 h1
          calc elimLoop fuel (i + 1) s₁' = elimLoop fuel (i + 1) (s₁'.1, s₁'.2) := by
                rw [Prod.mk.eta]
          _ = elimLoop fuel (i + 1) (s₁.1, s₁'.2) := by rw [hM]
          _ = none := h2
    · rw [dif_neg hi] at h
      exact absurd h (by simp)

lemma solve6x6_det_zero {A : Fin 6 → Fin 6 → ℝ} (b : Fin 6 → ℝ)
    (h : (Matrix.of A).det = 0) : solve6x6 A b = none := by
  by_contra hne
  have hsurj : ∀ b' : Fin 6 → ℝ, ∃ x, Matrix.of A *ᵥ x = b' := by
    intro b'
    have h1 : elimLoop (α := ℝ) 6 0 (A, b') ≠ none := by
      intro hn
      apply hne
      unfold solve6x6
      rw [elimLoop_none_indep 6 0 A b' b hn]
    rcases h2 : elimLoop (α := ℝ) 6 0 (A, b') with _ | ⟨M, B⟩
    · exact absurd h2 h1
    · refine ⟨backSub M B, ?_⟩
      have h3 : solve6x6 A b' = some (backSub M B) := by
        unfold solve6x6
        rw [h2]
      funext r
      exact solve6x6_some_solves h3 r
  obtain ⟨v, hv0, hvA⟩ := (Matrix.exists_vecMul_eq_zero_iff).mpr h
  obtain ⟨j, hj⟩ := Function.ne_iff.mp hv0
  obtain ⟨x, hx⟩ := hsurj (Pi.single j 1)
  have hdot : v ⬝ᵥ (Matrix.of A *ᵥ x) = v ⬝ᵥ Pi.single j 1 := by rw [hx]
  rw [Matrix.dotProduct_mulVec, hvA, Matrix.zero_dotProduct, dotProduct_single, mul_one] at hdot
  exact hj (by simpa using hdot.symm)

lemma elimStep_keep (M : Fin 6 → Fin 6 → α) (B : Fin 6 → α) (i : Fin 6)
    (hmax : ∀ k, i < k → |M k i| ≤ |M i i|)
    (hbig : ¬ |M i i| < 1e-10)
    (hcol : ∀ k, i < k → M k i = 0) :
    elimStep (M, B) i = some (M, B) := by
  unfold elimStep
  dsimp only
  rw [pivotRow_of_max M i hmax, swapRows_self, swapVec_self, if_neg hbig]
  congr 1
  rw [Prod.mk.injEq]
  constructor
  · funext k j
    unfold elimMat
    by_cases hc : i < k ∧ i ≤ j
    · rw [if_pos hc, hcol k hc.1, zero_div, zero_mul, sub_zero]
    · rw [if_neg hc]
  · funext k
    unfold elimVec
    by_cases hc : i < k
    · rw [if_pos hc, hcol k hc, zero_div, zero_mul, sub_zero]
    · rw [if_neg hc]

lemma elimLoop_none_of_step {s : (Fin 6 → Fin 6 → α) × (Fin 6 → α)} {i : ℕ} (hi : i < 6)
    (h : elimStep s ⟨i, hi⟩ = none) (fuel : ℕ) : elimLoop (fuel + 1) i s = none := by
  unfold elimLoop
  rw [dif_pos hi, h]

lemma elimLoop_fixed (M : Fin 6 → Fin 6 → α) (B : Fin 6 → α)
    (h : ∀ i : Fin 6, elimStep (M, B) i = some (M, B)) :
    ∀ fuel i, elimLoop fuel i (M, B) = some (M, B) := by
  intro fuel
  induction fuel with
  | zero => intro i; rfl
  | succ fuel ih =>
    intro i
    unfold elimLoop
    by_cases hi : i < 6
    · rw [dif_pos hi, h ⟨i, hi⟩]
      exact ih (i + 1)
    · rw [dif_neg hi]

end SolverLemmas

section SolverConcrete

lemma idA_apply (i j : Fin 6) : idA i j = if i = j then 1 else 0 := rfl

lemma elimStep_idA (b : Fin 6 → ℝ) (i : Fin 6) : elimStep (idA, b) i = some (idA, b) := by
  have hoff : ∀ k, i < k → idA k i = 0 := by
    intro k hk
    rw [idA_apply, if_neg (ne_of_gt hk)]
  refine elimStep_keep idA b i (fun k hk => ?_) ?_ hoff
  · rw [hoff k hk, abs_zero]
    exact abs_nonneg _
  · rw [idA_apply, if_pos rfl]
    norm_num

lemma backSub_idA (b : Fin 6 → ℝ) : backSub idA b = b := by
  funext j
  fin_cases j
  · simp [backSub, idA]
  · simp [backSub, idA]
  · simp [backSub, idA]
  · simp [backSub, idA]
  · simp [backSub, idA]
  · show backSub idA b 5 = b 5
    have h : backSub idA b 5 = b 5 / idA 5 5 := rfl
    rw [h, idA_apply, if_pos rfl, div_one]

lemma solve6x6_idA (b : Fin 6 → ℝ) : solve6x6 idA b = some b := by
  have h2 : elimLoop 6 0 (idA, b) = some (idA, b) :=
    elimLoop_fixed _ _ (elimStep_idA b) 6 0
  unfold solve6x6
  rw [h2]
  dsimp only
  rw [backSub_idA]

lemma tinyScalarA_det_ne : (Matrix.of tinyScalarA).det ≠ 0 := by
  have h : Matrix.of tinyScalarA = (1e-12 : ℝ) • (1 : Matrix (Fin 6) (Fin 6) ℝ) := by
    ext i j
    by_cases hij : i = j <;> simp [tinyScalarA, Matrix.one_apply, hij]
  rw [h, Matrix.det_smul, Matrix.det_one, mul_one]
  norm_num [Fintype.card_fin]

lemma solve6x6_tiny : solve6x6 tinyScalarA onesV = none := by
  have hpiv : pivotRow tinyScalarA 0 = 0 := by
    refine pivotRow_of_max _ _ fun k hk => ?_
    have hk0 : tinyScalarA k 0 = 0 := by
      unfold tinyScalarA
      rw [if_neg (ne_of_gt hk)]
    rw [hk0, abs_zero]
    exact abs_nonneg _
  have hstep : elimStep (tinyScalarA, onesV) (⟨0, by norm_num⟩ : Fin 6) = none := by
    rw [elimStep_none_iff]
    dsimp only
    show |swapRows tinyScalarA 0 (pivotRow tinyScalarA 0) 0 0| < 1e-10
    rw [hpiv, swapRows_self]
    have h00 : tinyScalarA 0 0 = 1e-12 := by
      unfold tinyScalarA
      rw [if_pos rfl]
    rw [h00, abs_of_pos (by norm_num)]
    norm_num
  have hloop : elimLoop (α := ℝ) 6 0 (tinyScalarA, onesV) = none :=
    elimLoop_none_of_step (by norm_num) hstep 5
  unfold solve6x6
  rw [hloop]

lemma zeroA_det : (Matrix.of zeroA).det = 0 :=
  Matrix.det_eq_zero_of_row_eq_zero 0 fun _ => rfl

end SolverConcrete

/-- C5 counterexample: the claim "for every invertible `A` the solver
returns the vector `x` satisfying `A·x = b`" fails on the code: the matrix
`1e-12·I` is invertible (nonzero determinant) and yet `solve6x6` returns
`none`, because its first pivot `1e-12` already falls below the `1e-10`
threshold. -/
theorem solve6x6_claim_counterexample :
    (Matrix.of tinyScalarA).det ≠ 0 ∧ solve6x6 tinyScalarA onesV = none :=
  ⟨tinyScalarA_det_ne, solve6x6_tiny⟩

/-- C5 (amended): `solve6x6` performs Gaussian elimination with partial
pivoting and returns `none` exactly when the run encounters a pivot of
magnitude below `1e-10` after pivoting; over exact arithmetic, whenever it
returns a vector `x`, that vector satisfies `A·x = b`; and for every
singular `A` (zero determinant — e.g. a matrix with a zero row) it returns
`none` rather than a numeric result.  (Invertibility alone does not
guarantee a numeric result: an invertible matrix whose pivot falls below
`1e-10` also yields `none`.) -/
theorem solve6x6_spec (A : Fin 6 → Fin 6 → ℝ) (b : Fin 6 → ℝ) :
    (solve6x6 A b = none ↔ hasBadPivot 6 0 (A, b)) ∧
    (∀ x, solve6x6 A b = some x → Matrix.of A *ᵥ x = b) ∧
    ((Matrix.of A).det = 0 → solve6x6 A b = none) := by
  refine ⟨?_, ?_, fun hdet => solve6x6_det_zero b hdet⟩
  · unfold solve6x6
    rcases hrun : elimLoop (α := ℝ) 6 0 (A, b) with _ | ⟨M, B⟩
    · exact iff_of_true rfl ((elimLoop_none_iff 6 0 (A, b)).mp hrun)
    · refine iff_of_false (by simp) fun hbad => ?_
      have h := (elimLoop_none_iff 6 0 (A, b)).mpr hbad
      rw [hrun] at h
      exact absurd h (by simp)
  · intro x hx
    funext r
    exact solve6x6_some_solves hx r

/-- Witness for C5 (amended): on the 6×6 identity matrix the solver
succeeds and its output solves the system (`I·1 = 1`), and on the singular
zero matrix (every row a zero row) it returns `none`. -/
theorem solve6x6_spec_witness :
    Matrix.of idA *ᵥ onesV = onesV ∧ solve6x6 zeroA onesV = none := by
  constructor
  · have h := (solve6x6_spec idA onesV).2.1 onesV (solve6x6_idA onesV)
    exact h
  · exact (solve6x6_spec zeroA onesV).2.2 zeroA_det

/-! ### Claims about the Jacobian, initialization and driver -/

section VecIndex

lemma vec6_three (a0 a1 a2 a3 a4 a5 : ℝ) : ![a0, a1, a2, a3, a4, a5] 3 = a3 := rfl

lemma vec6_four (a0 a1 a2 a3 a4 a5 : ℝ) : ![a0, a1, a2, a3, a4, a5] 4 = a4 := rfl

lemma vec6_five (a0 a1 a2 a3 a4 a5 : ℝ) : ![a0, a1, a2, a3, a4, a5] 5 = a5 := rfl

end VecIndex

/-- C7 counterexample: the claim states the translation-block Jacobian entry
`du/dXc` is exactly `fx/Zc`.  At `R = I`, `t = 0`, `X = (0,0,1)`,
`fx = fy = 1`, `cx = cy = 0` we have `Zc = 1`, so the claim gives
`fx/Zc = 1/1`; the code computes `fx·invZ = 1/(1 + 1e-10)`, which differs. -/
theorem computeJacobian_claim_counterexample :
    ((computeJacobian (n := 1) (0, 0, 0) (0, 0, 0) idMat3 (fun _ => ((0 : ℝ), 0, 1))
        (fun _ => ((0 : ℝ), 0)) 1 1 0 0).2 0).1 3 ≠ (1 : ℝ) / 1 := by
  unfold computeJacobian jacobianPoint idMat3
  dsimp only
  rw [vec6_three]
  norm_num

/-- C7 (amended): for every point, `computeJacobian`'s residual pair equals
the pinhole projection of `P = R·X + t` with the `1e-10`-guarded depth,
minus the observed point: `u = fx·Xc/(Zc+1e-10) + cx`,
`v = fy·Yc/(Zc+1e-10) + cy`; and the Jacobian entries with respect to the
translation components are the guarded pinhole derivatives
`du/dXc = fx/(Zc+1e-10)`, `du/dYc = 0`, `du/dZc = -fx·Xc/(Zc+1e-10)²`,
`dv/dXc = 0`, `dv/dYc = fy/(Zc+1e-10)`, `dv/dZc = -fy·Yc/(Zc+1e-10)²`. -/
theorem computeJacobian_spec {n : ℕ} (rvec tvec : Vec3) (R : Mat3)
    (objPts : Fin n → Vec3) (imgPts : Fin n → ℝ × ℝ) (fx fy cx cy : ℝ) (i : Fin n) :
    (computeJacobian rvec tvec R objPts imgPts fx fy cx cy).1 i =
      (fx * camX R tvec (objPts i) / (camZ R tvec (objPts i) + 1e-10) + cx - (imgPts i).1,
       fy * camY R tvec (objPts i) / (camZ R tvec (objPts i) + 1e-10) + cy - (imgPts i).2) ∧
    ((computeJacobian rvec tvec R objPts imgPts fx fy cx cy).2 i).1 3 =
      fx / (camZ R tvec (objPts i) + 1e-10) ∧
    ((computeJacobian rvec tvec R objPts imgPts fx fy cx cy).2 i).1 4 = 0 ∧
    ((computeJacobian rvec tvec R objPts imgPts fx fy cx cy).2 i).1 5 =
      -(fx * camX R tvec (objPts i)) / (camZ R tvec (objPts i) + 1e-10) ^ 2 ∧
    ((computeJacobian rvec tvec R objPts imgPts fx fy cx cy).2 i).2 3 = 0 ∧
    ((computeJacobian rvec tvec R objPts imgPts fx fy cx cy).2 i).2 4 =
      fy / (camZ R tvec (objPts i) + 1e-10) ∧
    ((computeJacobian rvec tvec R objPts imgPts fx fy cx cy).2 i).2 5 =
      -(fy * camY R tvec (objPts i)) / (camZ R tvec (objPts i) + 1e-10) ^ 2 := by
  unfold computeJacobian jacobianPoint camX camY camZ
  dsimp only
  refine ⟨?_, ?_, ?_, ?_, ?_, ?_, ?_⟩
  · rw [Prod.mk.injEq]
    constructor <;> ring
  · rw [vec6_three]
    ring
  · rw [vec6_four]
  · rw [vec6_five, div_mul_div_comm, one_mul, ← pow_two]
    ring
  · rw [vec6_three]
  · rw [vec6_four]
    ring
  · rw [vec6_five, div_mul_div_comm, one_mul, ← pow_two]
    ring

/-- C8: `initializePose` always returns an initial rotation vector whose
third (roll) component is exactly `0`, with depth estimate
`tz = fx·scale3d/(scale2d + 1e-6)`; the `1e-6` guard makes the denominator
strictly positive — hence nonzero — even when the image points have zero 2D
spread (`scale2d = 0`), so the estimate is well defined on degenerate
collinear/coincident input and the solver returns a pose rather than
failing. -/
theorem initializePose_spec {n : ℕ} (d : PnPData n) :
    (initializePose d).1.2.2 = 0 ∧
    (initializePose d).2.2.2 = d.fx * scale3dOf d / (scale2dOf d + 1e-6) ∧
    0 < scale2dOf d + 1e-6 := by
  refine ⟨rfl, rfl, ?_⟩
  have h1 : 0 ≤ scale2dOf d := by
    unfold scale2dOf
    apply div_nonneg
    · exact Finset.sum_nonneg fun i _ => Real.sqrt_nonneg _
    · exact Nat.cast_nonneg n
  have h2 : (0 : ℝ) < 1e-6 := by norm_num
  linarith

/-- C9: `computeHeadPose` scales the i-th normalized landmark `(x, y)` to
pixel coordinates `(x·W, y·H)`, builds the intrinsics matrix
`[W, 0, W/2, 0, W, H/2, 0, 0, 1]` (both focal lengths equal to the image
width, principal point at the image centre), feeds these to `solvePnP`, and
converts the resulting rotation vector through `rodrigues` and the Euler
decomposition; the image dimensions default to 640×480. -/
theorem computeHeadPose_spec (lms : Fin 6 → ℝ × ℝ) (W H : ℝ) :
    computeHeadPose lms W H =
      rotationMatrixToEulerAngles (rodrigues
        (solvePnP facialCoordinationInRealWorld
          (fun i => ((lms i).1 * W, (lms i).2 * H))
          ⟨W, 0, W / 2, 0, W, H / 2, 0, 0, 1⟩).1) ∧
    computeHeadPose lms = computeHeadPose lms 640 480 := by
  refine ⟨?_, rfl⟩
  unfold computeHeadPose
  simp only [one_mul]

/-! ### Lemmas about the Levenberg-Marquardt refinement loop -/

section RefineLemmas

lemma refineLoop_succ {n : ℕ} (d : PnPData n) (k : ℕ) (s : LMState) :
    refineLoop d (k + 1) s =
      (match lmStep d s with
        | none => s
        | some s' => refineLoop d k s') := rfl

lemma lmStep_eq_none_of_stop {n : ℕ} (d : PnPData n) (s : LMState)
    (h : (∃ p, s.prevError = some p ∧ |p - errorAt d s| < 1e-8) ∨ errorAt d s < 0.01) :
    lmStep d s = none := by
  unfold lmStep
  dsimp only
  rcases hsp : s.prevError with _ | p
  · rcases h with ⟨p, hp, _⟩ | herr
    · rw [hsp] at hp
      exact Option.noConfusion hp
    · simp [herr]
  · rcases h with ⟨p', hp', hlt⟩ | herr
    · rw [hsp] at hp'
      obtain rfl := Option.some.inj hp'
      simp [hlt]
    · by_cases hc : |p - errorAt d s| < 1e-8
      · simp [hc]
      · simp [hc, herr]

lemma lmStep_eq_of_not_stop {n : ℕ} (d : PnPData n) (s : LMState)
    (h : ¬ ((∃ p, s.prevError = some p ∧ |p - errorAt d s| < 1e-8) ∨ errorAt d s < 0.01)) :
    lmStep d s =
      (match solve6x6 (dampedJtJ d s) (jtrAt d s) with
        | none => none
        | some delta => some (lmUpdate s delta (errorAt d s))) := by
  have herr : ¬ errorAt d s < 0.01 := fun he => h (Or.inr he)
  unfold lmStep
  dsimp only
  rcases hsp : s.prevError with _ | p
  · simp [herr]
  · have hc : ¬ |p - errorAt d s| < 1e-8 := fun hlt => h (Or.inl ⟨p, hsp, hlt⟩)
    simp [hc, herr]

lemma rodrigues_zero : rodrigues (0, 0, 0) = idMat3 := by
  rw [rodrigues_eq, if_pos]
  norm_num

lemma clampDelta_norm (delta : Fin 6 → ℝ)
    (h : Real.sqrt (∑ i, delta i * delta i) > 1.0) :
    Real.sqrt (∑ i, clampDelta delta i * clampDelta delta i) = 0.5 := by
  have hS0 : 0 < Real.sqrt (∑ i, delta i * delta i) := by
    have h1 : (0 : ℝ) < 1.0 := by norm_num
    linarith
  unfold clampDelta
  rw [if_pos h]
  have hsum : (∑ i, delta i * (0.5 / Real.sqrt (∑ i, delta i * delta i)) *
      (delta i * (0.5 / Real.sqrt (∑ i, delta i * delta i)))) =
      (0.5 / Real.sqrt (∑ i, delta i * delta i)) ^ 2 * ∑ i, delta i * delta i := by
    rw [Finset.mul_sum]
    exact Finset.sum_congr rfl fun i _ => by ring
  rw [hsum, Real.sqrt_mul (by positivity), Real.sqrt_sq (by positivity)]
  exact div_mul_cancel₀ _ (ne_of_gt hS0)

lemma errorAt_dataSmallError : errorAt dataSmallError lmState0 = 0 := by
  unfold errorAt residualsAt computeJacobian jacobianPoint dataSmallError lmState0
  dsimp only
  rw [rodrigues_zero]
  simp [idMat3]

lemma errorAt_dataSingular : errorAt dataSingular lmState0 = 25 := by
  unfold errorAt residualsAt computeJacobian jacobianPoint dataSingular lmState0
  dsimp only
  rw [rodrigues_zero]
  simp [idMat3]
  norm_num

lemma not_stop_dataSingular :
    ¬ ((∃ p, lmState0.prevError = some p ∧
        |p - errorAt dataSingular lmState0| < 1e-8) ∨
      errorAt dataSingular lmState0 < 0.01) := by
  rw [errorAt_dataSingular]
  rintro (⟨p, hp, _⟩ | h)
  · exact Option.noConfusion hp
  · norm_num at h

lemma jacobian_dataSingular (i : Fin 1) (j : Fin 6) :
    (jacobianAt dataSingular lmState0 i).1 j = 0 ∧
    (jacobianAt dataSingular lmState0 i).2 j = 0 := by
  unfold jacobianAt computeJacobian jacobianPoint dataSingular lmState0
  dsimp only
  rw [rodrigues_zero]
  fin_cases j <;>
    constructor <;>
      simp [idMat3, vec6_three, vec6_four, vec6_five]

lemma dampedJtJ_dataSingular : dampedJtJ dataSingular lmState0 = zeroA := by
  funext j k
  have hu := fun (jj : Fin 6) => (jacobian_dataSingular 0 jj).1
  have hv := fun (jj : Fin 6) => (jacobian_dataSingular 0 jj).2
  unfold dampedJtJ jtjAt zeroA
  split_ifs with hjk <;> simp [hu, hv]

lemma solve_dataSingular_none :
    solve6x6 (dampedJtJ dataSingular lmState0) (jtrAt dataSingular lmState0) = none := by
  rw [dampedJtJ_dataSingular]
  exact solve6x6_det_zero _ zeroA_det

end RefineLemmas

/-- C3: the Levenberg-Marquardt refinement runs at most 30 iterations
(`refinePose` is the 30-fuel loop from `λ = 0.001`, `prevError = Infinity`),
and an iteration stops before computing an update exactly when the
sum-of-squares error changed by less than `1e-8` from the recorded previous
error, or when that error drops below `0.01`; otherwise the iteration
proceeds to the linear solve and the update. -/
theorem refinePose_loop_spec {n : ℕ} (d : PnPData n) (pose : Vec3 × Vec3) :
    (refinePose d pose =
      ((refineLoop d 30 ⟨pose.1, pose.2, 0.001, none⟩).rvec,
        (refineLoop d 30 ⟨pose.1, pose.2, 0.001, none⟩).tvec)) ∧
    (∀ (k : ℕ) (s : LMState),
      ((∃ p, s.prevError = some p ∧ |p - errorAt d s| < 1e-8) ∨ errorAt d s < 0.01) →
        refineLoop d (k + 1) s = s) ∧
    (∀ (k : ℕ) (s : LMState),
      ¬ ((∃ p, s.prevError = some p ∧ |p - errorAt d s| < 1e-8) ∨ errorAt d s < 0.01) →
        refineLoop d (k + 1) s =
          (match solve6x6 (dampedJtJ d s) (jtrAt d s) with
            | none => s
            | some delta => refineLoop d k (lmUpdate s delta (errorAt d s)))) := by
  refine ⟨rfl, fun k s h => ?_, fun k s h => ?_⟩
  · rw [refineLoop_succ, lmStep_eq_none_of_stop d s h]
  · rw [refineLoop_succ, lmStep_eq_of_not_stop d s h]
    rcases hs : solve6x6 (dampedJtJ d s) (jtrAt d s) with _ | delta <;> rfl

/-- Witness for C3: on a one-point problem with zero reprojection error the
loop stops immediately (error `0 < 0.01`); on a one-point problem with
error `25` and a singular normal matrix it does not stop at the convergence
check but aborts at the failed solve, returning the state unchanged. -/
theorem refinePose_loop_spec_witness :
    refineLoop dataSmallError 1 lmState0 = lmState0 ∧
    refineLoop dataSingular 1 lmState0 = lmState0 := by
  constructor
  · exact (refinePose_loop_spec dataSmallError ((0, 0, 0), (0, 0, 0))).2.1 0 lmState0
      (Or.inr (by rw [errorAt_dataSmallError]; norm_num))
  · have h := (refinePose_loop_spec dataSingular ((0, 0, 0), (0, 0, 0))).2.2 0 lmState0
      not_stop_dataSingular
    rw [h, solve_dataSingular_none]

/-- C4: in every refinement iteration that obtains a step `delta`: if
`‖delta‖ > 1.0` the step is rescaled to norm exactly `0.5`; the parameters
are updated unconditionally by `rvec := rvec - delta[0:3]`,
`tvec := tvec - delta[3:6]` (with the clamped step); and if the error
improved on the best recorded error, `λ` is multiplied by `0.1` and the best
error updated, otherwise `λ` is multiplied by `10` and the parameter update
is NOT rolled back (the update equations hold regardless of the branch). -/
theorem lmUpdate_spec (s : LMState) (delta : Fin 6 → ℝ) (error : ℝ) :
    (Real.sqrt (∑ i, delta i * delta i) > 1.0 →
      Real.sqrt (∑ i, clampDelta delta i * clampDelta delta i) = 0.5) ∧
    (lmUpdate s delta error).rvec =
      (s.rvec.1 - clampDelta delta 0, s.rvec.2.1 - clampDelta delta 1,
        s.rvec.2.2 - clampDelta delta 2) ∧
    (lmUpdate s delta error).tvec =
      (s.tvec.1 - clampDelta delta 3, s.tvec.2.1 - clampDelta delta 4,
        s.tvec.2.2 - clampDelta delta 5) ∧
    (s.prevError = none →
      (lmUpdate s delta error).lambda = s.lambda * 0.1 ∧
      (lmUpdate s delta error).prevError = some error) ∧
    (∀ p, s.prevError = some p → error < p →
      (lmUpdate s delta error).lambda = s.lambda * 0.1 ∧
      (lmUpdate s delta error).prevError = some error) ∧
    (∀ p, s.prevError = some p → ¬ error < p →
      (lmUpdate s delta error).lambda = s.lambda * 10 ∧
      (lmUpdate s delta error).prevError = s.prevError) := by
  refine ⟨clampDelta_norm delta, rfl, rfl, fun hp => ?_, fun p hp hlt => ?_, fun p hp hlt => ?_⟩
  · simp [lmUpdate, improves, hp]
  · simp [lmUpdate, improves, hp, hlt]
  · simp [lmUpdate, improves, hp, hlt]

/-- Witness for C4: the step `(2,0,0,0,0,0)` of norm `2 > 1` is clamped to
norm exactly `0.5`; with error `25` against a best error of `26` the damping
shrinks (`λ × 0.1`) and the best error becomes `25`; against a best error of
`1` the damping grows (`λ × 10`) and the best error is kept. -/
theorem lmUpdate_spec_witness :
    Real.sqrt (∑ i, clampDelta deltaW i * clampDelta deltaW i) = 0.5 ∧
    (lmUpdate lmStateHigh deltaW 25).lambda = lmStateHigh.lambda * 0.1 ∧
    (lmUpdate lmStateHigh deltaW 25).prevError = some 25 ∧
    (lmUpdate lmStateLow deltaW 25).lambda = lmStateLow.lambda * 10 ∧
    (lmUpdate lmStateLow deltaW 25).prevError = lmStateLow.prevError := by
  have hnorm : Real.sqrt (∑ i, deltaW i * deltaW i) > 1.0 := by
    have h4 : (∑ i, deltaW i * deltaW i) = 4 := by
      rw [Fin.sum_univ_six]
      norm_num [deltaW, vec6_three, vec6_four, vec6_five]
    rw [h4, show (4 : ℝ) = 2 ^ 2 by norm_num, Real.sqrt_sq (by norm_num : (0:ℝ) ≤ 2)]
    norm_num
  refine ⟨(lmUpdate_spec lmStateHigh deltaW 25).1 hnorm, ?_, ?_, ?_, ?_⟩
  · exact ((lmUpdate_spec lmStateHigh deltaW 25).2.2.2.2.1 26 rfl (by norm_num)).1
  · exact ((lmUpdate_spec lmStateHigh deltaW 25).2.2.2.2.1 26 rfl (by norm_num)).2
  · exact ((lmUpdate_spec lmStateLow deltaW 25).2.2.2.2.2 1 rfl (by norm_num)).1
  · exact ((lmUpdate_spec lmStateLow deltaW 25).2.2.2.2.2 1 rfl (by norm_num)).2

/-- C6: if the 6×6 linear solve fails (`none`) in a refinement iteration
that did not already stop at the convergence checks, the loop aborts and
returns the current parameters unchanged; and `solvePnP` is the total
composition of initialization and refinement, so it returns a
`{rvec, tvec}` pair for every input — a singular system is non-fatal. -/
theorem refine_singular_spec {n : ℕ} (d : PnPData n) :
    (∀ (k : ℕ) (s : LMState),
      ¬ ((∃ p, s.prevError = some p ∧ |p - errorAt d s| < 1e-8) ∨ errorAt d s < 0.01) →
      solve6x6 (dampedJtJ d s) (jtrAt d s) = none →
      refineLoop d (k + 1) s = s) ∧
    (∀ (objPts : Fin n → Vec3) (imgPts : Fin n → ℝ × ℝ) (cm : Mat3),
      solvePnP objPts imgPts cm =
        refinePose ⟨objPts, imgPts, cm.e0, cm.e4, cm.e2, cm.e5⟩
          (initializePose ⟨objPts, imgPts, cm.e0, cm.e4, cm.e2, cm.e5⟩)) := by
  refine ⟨fun k s hstop hsolve => ?_, fun _ _ _ => rfl⟩
  rw [refineLoop_succ, lmStep_eq_of_not_stop d s hstop, hsolve]

/-- Witness for C6: on the one-point problem with zero focal lengths the
convergence checks do not fire (error `25`), the damped normal matrix is
the zero matrix so the solve returns `none`, and the loop returns the state
unchanged. -/
theorem refine_singular_spec_witness : refineLoop dataSingular 1 lmState0 = lmState0 :=
  (refine_singular_spec dataSingular).1 0 lmState0 not_stop_dataSingular
    solve_dataSingular_none

end HeadPose
